import Mathlib

/-!
Verification of the virtual-filesystem core of the chat-context toolkit and of
the assistant step handler that wires it into a conversation turn.

The step handler (`next_step` in
`assistants/codespace-assistant/assistant/response/step_handler.py`) is embedded
directly from the source.  The virtual-filesystem core itself
(`chat_context_toolkit/virtual_filesystem`) only exposes its public names under
`src/` — `DirectoryEntry`, `FileEntry`, `FileSource`, `MountPoint`,
`VirtualFileSystem` — so its operations are modelled from the specification, as
indicated on each definition.
-/

/-- Modelled from the spec: the entry model of
`chat_context_toolkit.virtual_filesystem._types` (`DirectoryEntry` /
`FileEntry`, re-exported by the package `__init__`): a tagged union where every
entry has a `name` (single segment) and an absolute virtual `path`; a file
additionally carries an optional size and description, a directory only an
optional description. -/
inductive Entry
  | directory (name : String) (path : String) (description : Option String)
  | file (name : String) (path : String) (size : Option Nat) (description : Option String)
  deriving DecidableEq

/-- Name of an entry. -/
def entryName : Entry → String
  | .directory n _ _ => n
  | .file n _ _ _ => n

/-- Path of an entry. -/
def entryPath : Entry → String
  | .directory _ p _ => p
  | .file _ p _ _ => p

/-- Whether an entry is a directory. -/
def isDirEntry : Entry → Bool
  | .directory _ _ _ => true
  | .file _ _ _ _ => false

/-- Size of an entry (files only). -/
def entrySize : Entry → Option Nat
  | .directory _ _ _ => none
  | .file _ _ s _ => s

/-- Description of an entry. -/
def entryDescription : Entry → Option String
  | .directory _ _ d => d
  | .file _ _ _ d => d

/-- Modelled from the spec: the error taxonomy of the virtual filesystem —
`NotFound`, `IsADirectory`, and `SourceError` carrying the provider's cause. -/
inductive FsError
  | notFound
  | isADirectory
  | sourceError (cause : String)
  deriving DecidableEq

/-- Modelled from the spec: the value returned by a successful `read_file` —
content plus size plus an optional mime-or-description hint. -/
structure FileReadResult where
  content : String
  size : Nat
  hint : Option String
  deriving DecidableEq

/-- Modelled from the spec: the `FileSource` capability — list the children of
a source-relative path, read content at a source-relative path. -/
structure FileSource where
  list : String → Except FsError (List Entry)
  read : String → Except FsError FileReadResult

/-- Modelled from the spec: a `MountPoint` binds one non-root path prefix
(`pfx`, e.g. `"attachments"`) to one `FileSource` plus optional description. -/
structure MountPoint where
  pfx : String
  source : FileSource
  description : Option String

/-- Modelled from the spec: a `VirtualFileSystem` aggregates mount points; it
owns only routing state. -/
structure VirtualFileSystem where
  mounts : List MountPoint

/-- Split a character list on `/`, keeping empty runs (`rawSplit "a//b"` =
`[[a],[],[b]]`). -/
def rawSplit : List Char → List (List Char)
  | [] => [[]]
  | c :: cs =>
    match rawSplit cs with
    | [] => [[]]
    | s :: rest => if c = '/' then [] :: s :: rest else (c :: s) :: rest

/-- The nonempty segments of a path body: repeated separators collapse and a
trailing separator is stripped because empty runs are dropped. -/
def pathSegs (l : List Char) : List (List Char) :=
  (rawSplit l).filter (fun s => !s.isEmpty)

/-- Whether a segment is `.` or `..` (both rejected by normalization). -/
def isDotSeg (s : List Char) : Bool := s == ['.'] || s == ['.', '.']

/-- Modelled from the spec: path normalization for `list_directory` /
`read_file` — require an absolute path (leading `/`), collapse repeated
separators, strip a trailing separator, and accept no `.`/`..` segments (an
unresolved `..` must surface as `NotFound`, never escape a mount).  Returns the
segment list of the normalized path, `none` on rejection. -/
def normalizePath (p : String) : Option (List (List Char)) :=
  match p.data with
  | '/' :: rest => if (pathSegs rest).any isDotSeg then none else some (pathSegs rest)
  | _ => none

/-- The segments of a mount's path prefix. -/
def prefixSegs (m : MountPoint) : List (List Char) := pathSegs m.pfx.data

/-- Render a source-relative segment list back to a relative path string. -/
def relPathString (rel : List (List Char)) : String :=
  String.intercalate "/" (rel.map String.mk)

/-- Modelled from the spec: find the mount whose prefix is the longest matching
ancestor of the normalized path (the path equals the prefix or starts with
prefix + separator); also returns the remaining source-relative segments. -/
def findMount : List MountPoint → List (List Char) → Option (MountPoint × List (List Char))
  | [], _ => none
  | m :: ms, segs =>
    let rest := findMount ms segs
    if (prefixSegs m).isPrefixOf segs then
      match rest with
      | none => some (m, segs.drop (prefixSegs m).length)
      | some (m2, rel2) =>
        if (prefixSegs m2).length < (prefixSegs m).length then
          some (m, segs.drop (prefixSegs m).length)
        else
          some (m2, rel2)
    else rest

/-- Modelled from the spec: translate a source-relative entry back to the
virtual namespace by re-prepending the mount prefix to its path, preserving
name, kind, size and description unchanged. -/
def reprefixEntry (m : MountPoint) : Entry → Entry
  | .directory n p d => .directory n ("/" ++ m.pfx ++ "/" ++ p) d
  | .file n p s d => .file n ("/" ++ m.pfx ++ "/" ++ p) s d

/-- Modelled from the spec: the synthesized root entry for a mount — a
`Directory` named by the mount prefix's first segment, with path
`/` + prefix, carrying the mount's description. -/
def rootEntry (m : MountPoint) : Entry :=
  .directory (String.mk ((prefixSegs m).headD [])) ("/" ++ m.pfx) m.description

/-- Order on entries by name, used for deterministic sorting. -/
def entryLe (a b : Entry) : Prop := entryName a ≤ entryName b

instance : DecidableRel entryLe :=
  fun a b => inferInstanceAs (Decidable (entryName a ≤ entryName b))

/-- Sort entries alphabetically by name. -/
def sortEntries (es : List Entry) : List Entry := List.insertionSort entryLe es

/-- Modelled from the spec: the root listing — one synthesized `Directory`
entry per mount, sorted by name for determinism. -/
def rootListing (ms : List MountPoint) : List Entry :=
  sortEntries (ms.map rootEntry)

/-- Modelled from the spec: `list_directory` — normalize the path; at the root
synthesize one directory entry per mount; otherwise route to the mount whose
prefix is the longest matching ancestor (`NotFound` if none), delegate to that
mount's source with the prefix stripped, and re-prepend the prefix to each
returned entry's relative path. -/
def listDirectory (vfs : VirtualFileSystem) (path : String) : Except FsError (List Entry) :=
  match normalizePath path with
  | none => .error .notFound
  | some [] => .ok (rootListing vfs.mounts)
  | some segs =>
    match findMount vfs.mounts segs with
    | none => .error .notFound
    | some (m, rel) =>
      match m.source.list (relPathString rel) with
      | .error e => .error e
      | .ok entries => .ok (entries.map (reprefixEntry m))

/-- Modelled from the spec: `read_file` — resolution mirrors `list_directory`;
the root and an exact mount prefix denote directories (`IsADirectory`); an
uncovered path is `NotFound`; otherwise delegate to the mount's source `read`
with the source-relative path. -/
def readFile (vfs : VirtualFileSystem) (path : String) : Except FsError FileReadResult :=
  match normalizePath path with
  | none => .error .notFound
  | some [] => .error .isADirectory
  | some segs =>
    match findMount vfs.mounts segs with
    | none => .error .notFound
    | some (m, rel) =>
      if rel.isEmpty then .error .isADirectory
      else m.source.read (relPathString rel)

/-- Two mount prefixes conflict when they are equal or one is an ancestor of
the other. -/
def prefixesConflict (a b : MountPoint) : Bool :=
  (prefixSegs a).isPrefixOf (prefixSegs b) || (prefixSegs b).isPrefixOf (prefixSegs a)

/-- Pairwise absence of prefix conflicts among mounts. -/
def conflictFree : List MountPoint → Bool
  | [] => true
  | m :: ms => ms.all (fun m2 => !prefixesConflict m m2) && conflictFree ms

/-- Modelled from the spec: the construction-time failure `MountConflict`. -/
inductive VfsConstructError
  | mountConflict
  deriving DecidableEq

/-- Modelled from the spec: `construct(mounts)` — fails fast with
`MountConflict` if any two mounts have equal or ancestor/descendant prefixes;
this check runs once, at construction, not per call. -/
def construct (ms : List MountPoint) : Except VfsConstructError VirtualFileSystem :=
  if conflictFree ms then .ok ⟨ms⟩ else .error .mountConflict

/-- Render one listing line: kind followed by name. -/
def renderEntryLine (e : Entry) : String :=
  (if isDirEntry e then "directory " else "file ") ++ entryName e

/-- Modelled from the spec: the `Ls` success payload — a deterministic sorted
listing, directories first, then files, each group alphabetical by name. -/
def renderListing (es : List Entry) : String :=
  let ds := sortEntries (es.filter (fun e => isDirEntry e))
  let fs := sortEntries (es.filter (fun e => !isDirEntry e))
  String.intercalate "\n" ((ds ++ fs).map renderEntryLine)

/-- Modelled from the spec: the human-readable error text placed in the tool
result payload when a filesystem operation fails. -/
def renderError : FsError → String
  | .notFound => "error: path not found"
  | .isADirectory => "error: path is a directory, not a file"
  | .sourceError cause => "error: the file source failed: " ++ cause

/-- Modelled from the spec: the explicit marker appended when `View` truncates
file content that exceeds the configured maximum length. -/
def truncationMarker : String := " [...content truncated]"

/-- Modelled from the spec: truncate content to the configured maximum length,
appending the truncation marker; content at or under the maximum is returned
unmodified with no marker. -/
def truncateContent (maxLen : Nat) (s : String) : String :=
  if maxLen < s.length then String.mk (s.data.take maxLen) ++ truncationMarker else s

/-- Modelled from the spec: the `Ls` tool adapter — calls `list_directory` and
always produces a successful tool-result payload: the rendered listing on
success, the rendered error text on failure.  No error escapes the boundary. -/
def lsTool (vfs : VirtualFileSystem) (path : String) : String :=
  match listDirectory vfs path with
  | .ok es => renderListing es
  | .error e => renderError e

/-- Modelled from the spec: the `View` tool adapter — calls `read_file` and
always produces a successful tool-result payload: the (possibly truncated)
content on success, the rendered error text on failure. -/
def viewTool (maxLen : Nat) (vfs : VirtualFileSystem) (path : String) : String :=
  match readFile vfs path with
  | .ok r => truncateContent maxLen r.content
  | .error e => renderError e

/-! ## The assistant step handler

Embedding of `next_step` from
`assistants/codespace-assistant/assistant/response/step_handler.py`.  External
collaborators (the two mount factories, `build_request`, `get_completion`,
`handle_completion`, the MCP tool list) are parameters of the step
environment; the control flow of `next_step` itself is embedded from the
source. -/

/-- The schema a tool adapter exposes to the model's function-calling
protocol: a name plus its parameter names. -/
structure ToolParam where
  name : String
  parameters : List String
  deriving DecidableEq

/-- A virtual-filesystem tool adapter held in the tool collection: `LsTool` or
`ViewTool`, each borrowing the virtual filesystem it operates on. -/
inductive VfsToolAdapter
  | lsAdapter (vfs : VirtualFileSystem)
  | viewAdapter (vfs : VirtualFileSystem)

/-- The schema (`tool_param`) of a virtual-filesystem tool adapter: `ls` takes
a path; `view` takes a path and optional range bounds. -/
def VfsToolAdapter.toolParam : VfsToolAdapter → ToolParam
  | .lsAdapter _ => ⟨"ls", ["path"]⟩
  | .viewAdapter _ => ⟨"view", ["path", "offset", "length"]⟩

/-- An ordered collection of virtual-filesystem tool adapters
(`ToolCollection`). -/
structure ToolCollection where
  tools : List VfsToolAdapter

/-- Debug information recorded in the step metadata under one metadata key. -/
structure DebugInfo where
  requestRecorded : Bool
  error : Option String
  deriving DecidableEq

/-- Step metadata: debug entries keyed by metadata key (the slice of the
metadata dictionary that `next_step` writes through `deepmerge`). -/
structure StepMetadata where
  debug : List (String × DebugInfo)

/-- Read the debug entry for a key (absent keys read as empty). -/
def getDebug (md : StepMetadata) (key : String) : DebugInfo :=
  match md.debug.lookup key with
  | some d => d
  | none => ⟨false, none⟩

/-- Merge an update into the debug entry for a key, in place when the key is
present, appending it otherwise (the `deepmerge.always_merger` behavior). -/
def updateDebug (f : DebugInfo → DebugInfo) (key : String) :
    List (String × DebugInfo) → List (String × DebugInfo)
  | [] => [(key, f ⟨false, none⟩)]
  | (k, d) :: rest =>
    if k = key then (k, f d) :: rest else (k, d) :: updateDebug f key rest

/-- `next_step` merging the request debug information into the metadata. -/
def recordDebugRequest (md : StepMetadata) (key : String) : StepMetadata :=
  ⟨updateDebug (fun d => { d with requestRecorded := true }) key md.debug⟩

/-- `next_step` merging the string form of a completion exception into the
metadata under `debug.<metadata_key>.error`. -/
def recordDebugError (md : StepMetadata) (key : String) (e : String) : StepMetadata :=
  ⟨updateDebug (fun d => { d with error := some e }) key md.debug⟩

/-- `StepResult` from `response/models.py` as used by `next_step`: a status
string plus metadata. -/
structure StepResult where
  status : String
  metadata : StepMetadata

/-- A conversation message of type `notice` sent by `next_step`. -/
structure Notice where
  content : String
  metadata : Option StepMetadata

/-- Outcome of the model-completion call inside `next_step`: the completion
value, or the exception it raised (carried as its string form). -/
inductive CompletionOutcome
  | success (completion : String)
  | exception (e : String)

/-- The environment of one `next_step` call: the values produced by its
external collaborators. -/
structure StepEnv where
  attachmentsMount : MountPoint
  archiveMount : MountPoint
  mcpTools : List ToolParam
  tokenOverage : Nat
  completionOutcome : CompletionOutcome
  handleCompletion : String → StepResult → ToolCollection → StepResult

/-- Everything observable about one `next_step` call: the returned step
result, the notice messages sent, and the turn-scoped filesystem and tool
wiring it constructed. -/
structure StepOutcome where
  result : StepResult
  notices : List Notice
  vfs : VirtualFileSystem
  vfsTools : ToolCollection
  tools : List ToolParam

/-- The fixed notice content sent when the completion call raises. -/
def openaiErrorNotice : String :=
  "An error occurred while calling the OpenAI API. Is it configured correctly?" ++
    " View the debug inspector for more information."

/-- The notice content sent when the built request exceeded the token budget. -/
def tokenOverageNotice (overage : Nat) : String :=
  "The conversation history exceeds the token limit by " ++ toString overage ++
    " tokens. Conversation history sent to the model was truncated."

/-- Embedded from `next_step` (`step_handler.py`): construct a fresh virtual
filesystem from the attachments and archive mounts, wrap it in a tool
collection holding an `LsTool` and a `ViewTool`, expose both schemas in the
tool list ahead of the MCP tools, record the request debug information, then
call the model: on an exception, record its string form under the debug key,
send the fixed notice and return with status `error`; on success, hand off to
`handle_completion` and send the token-overage notice when applicable.  A
mount conflict at construction is the only failure that propagates. -/
def nextStep (env : StepEnv) (metadataKey : String) (metadata : StepMetadata) :
    Except VfsConstructError StepOutcome :=
  match construct [env.attachmentsMount, env.archiveMount] with
  | .error c => .error c
  | .ok virtualFilesystem =>
    let stepResult : StepResult := ⟨"continue", metadata⟩
    let vfsTools : ToolCollection :=
      ⟨[.lsAdapter virtualFilesystem, .viewAdapter virtualFilesystem]⟩
    let tools : List ToolParam :=
      vfsTools.tools.map VfsToolAdapter.toolParam ++ env.mcpTools
    let stepResult : StepResult :=
      ⟨stepResult.status, recordDebugRequest stepResult.metadata metadataKey⟩
    match env.completionOutcome with
    | .exception e =>
      let md := recordDebugError stepResult.metadata metadataKey e
      .ok
        { result := ⟨"error", md⟩
          notices := [⟨openaiErrorNotice, some md⟩]
          vfs := virtualFilesystem
          vfsTools := vfsTools
          tools := tools }
    | .success completion =>
      let afterCompletion := env.handleCompletion completion stepResult vfsTools
      .ok
        { result := afterCompletion
          notices :=
            if 0 < env.tokenOverage then [⟨tokenOverageNotice env.tokenOverage, none⟩]
            else []
          vfs := virtualFilesystem
          vfsTools := vfsTools
          tools := tools }


/-! ## Sample sources and mounts for concrete evaluation -/

/-- View of a mount as the data the root listing is fabricated from: its
prefix and description only, never its source. -/
def rootEntryView (pd : String × Option String) : Entry :=
  .directory (String.mk ((pathSegs pd.1.data).headD [])) ("/" ++ pd.1) pd.2

/-- An in-memory attachments source holding one file and one directory at its
relative root. -/
def sampleAttachmentsSource : FileSource where
  list := fun r =>
    if r = "" then
      .ok [.file "a.txt" "a.txt" (some 3) none, .directory "sub" "sub" none]
    else .error .notFound
  read := fun r =>
    if r = "a.txt" then .ok ⟨"abc", 3, none⟩ else .error .notFound

/-- An in-memory archive source with no content. -/
def sampleArchiveSource : FileSource where
  list := fun _ => .error .notFound
  read := fun _ => .error .notFound

/-- A mount binding the attachments source at prefix `attachments`. -/
def sampleAttachmentsMount : MountPoint :=
  ⟨"attachments", sampleAttachmentsSource, none⟩

/-- A mount binding the archive source at prefix `history`. -/
def sampleArchiveMount : MountPoint :=
  ⟨"history", sampleArchiveSource, some "archived history"⟩

/-- A virtual filesystem over the two sample mounts. -/
def sampleVfs : VirtualFileSystem :=
  ⟨[sampleAttachmentsMount, sampleArchiveMount]⟩

/-- Two mounts whose prefixes are in ancestor/descendant conflict. -/
def conflictMountA : MountPoint := ⟨"docs", sampleArchiveSource, none⟩

/-- See `conflictMountA`. -/
def conflictMountB : MountPoint := ⟨"docs/sub", sampleArchiveSource, none⟩

/-- A step environment whose completion call succeeds. -/
def sampleEnvOk : StepEnv :=
  ⟨sampleAttachmentsMount, sampleArchiveMount, [⟨"mcp-tool", ["arg"]⟩], 0,
    .success "done", fun _ sr _ => sr⟩

/-- A step environment whose completion call raises. -/
def sampleEnvErr : StepEnv :=
  { sampleEnvOk with completionOutcome := .exception "boom" }

/-! ## Helper lemmas -/

theorem rawSplit_ne_nil (l : List Char) : rawSplit l ≠ [] := by
  cases l with
  | nil => simp [rawSplit]
  | cons c cs =>
    simp only [rawSplit]
    cases rawSplit cs with
    | nil => simp
    | cons s rest =>
      by_cases hc : c = '/' <;> simp [hc]

theorem rawSplit_append (a b : List Char) :
    rawSplit (a ++ '/' :: b) = rawSplit a ++ rawSplit b := by
  induction a with
  | nil =>
    simp only [List.nil_append, rawSplit]
    cases hr : rawSplit b with
    | nil => exact absurd hr (rawSplit_ne_nil b)
    | cons s rest => simp
  | cons c cs ih =>
    by_cases hc : c = '/' <;>
      cases hr : rawSplit cs with
      | nil => exact absurd hr (rawSplit_ne_nil cs)
      | cons s rest => simp [rawSplit, ih, hr, hc]

theorem pathSegs_append (a b : List Char) :
    pathSegs (a ++ '/' :: b) = pathSegs a ++ pathSegs b := by
  simp [pathSegs, rawSplit_append, List.filter_append]

theorem pathSegs_nil : pathSegs [] = [] := rfl

theorem pathSegs_slash_cons (b : List Char) : pathSegs ('/' :: b) = pathSegs b := by
  have h := pathSegs_append [] b
  simpa using h

theorem findMount_eq_none_iff (ms : List MountPoint) (segs : List (List Char)) :
    findMount ms segs = none ↔
      ∀ m ∈ ms, (prefixSegs m).isPrefixOf segs = false := by
  induction ms with
  | nil => simp [findMount]
  | cons m0 rest ih =>
    constructor
    · intro h
      simp only [findMount] at h
      by_cases h0 : (prefixSegs m0).isPrefixOf segs
      · simp only [h0, if_true] at h
        cases hr : findMount rest segs with
        | none => rw [hr] at h; exact absurd h (by simp)
        | some p =>
          obtain ⟨m2, rel2⟩ := p
          rw [hr] at h
          by_cases hlt : (prefixSegs m2).length < (prefixSegs m0).length <;>
            simp [hlt] at h
      · simp only [h0, if_false] at h
        intro m2 hm2
        rcases List.mem_cons.mp hm2 with h2 | h2
        · subst h2; exact Bool.eq_false_iff.mpr h0
        · exact (ih.mp h) m2 h2
    · intro h
      have h0 : (prefixSegs m0).isPrefixOf segs = false := h m0 (by simp)
      have hrest : findMount rest segs = none :=
        ih.mpr (fun m2 hm2 => h m2 (by simp [hm2]))
      simp [findMount, h0, hrest]

theorem findMount_some_spec (ms : List MountPoint) (segs : List (List Char))
    (m : MountPoint) (rel : List (List Char))
    (h : findMount ms segs = some (m, rel)) :
    m ∈ ms ∧ (prefixSegs m).isPrefixOf segs = true ∧
      rel = segs.drop (prefixSegs m).length := by
  induction ms generalizing m rel with
  | nil => simp [findMount] at h
  | cons m0 rest ih =>
    simp only [findMount] at h
    by_cases h0 : (prefixSegs m0).isPrefixOf segs
    · simp only [h0, if_true] at h
      cases hr : findMount rest segs with
      | none =>
        rw [hr] at h
        simp only [Option.some.injEq, Prod.mk.injEq] at h
        obtain ⟨he, hrel⟩ := h
        subst he; subst hrel
        exact ⟨by simp, h0, rfl⟩
      | some p =>
        obtain ⟨m2, rel2⟩ := p
        rw [hr] at h
        by_cases hlt : (prefixSegs m2).length < (prefixSegs m0).length
        · simp only [hlt, if_true, Option.some.injEq, Prod.mk.injEq] at h
          obtain ⟨he, hrel⟩ := h
          subst he; subst hrel
          exact ⟨by simp, h0, rfl⟩
        · simp only [hlt, if_false, Option.some.injEq, Prod.mk.injEq] at h
          obtain ⟨he, hrel⟩ := h
          subst he; subst hrel
          obtain ⟨hmem, hpre, hrel⟩ := ih m2 rel2 hr
          exact ⟨by simp [hmem], hpre, hrel⟩
    · simp only [h0, if_false] at h
      obtain ⟨hmem, hpre, hrel⟩ := ih m rel h
      exact ⟨by simp [hmem], hpre, hrel⟩

theorem findMount_maximal (ms : List MountPoint) (segs : List (List Char))
    (m : MountPoint) (rel : List (List Char))
    (h : findMount ms segs = some (m, rel)) :
    ∀ m2 ∈ ms, (prefixSegs m2).isPrefixOf segs = true →
      (prefixSegs m2).length ≤ (prefixSegs m).length := by
  induction ms generalizing m rel with
  | nil => simp [findMount] at h
  | cons m0 rest ih =>
    intro m2 hm2 hpre2
    simp only [findMount] at h
    by_cases h0 : (prefixSegs m0).isPrefixOf segs
    · simp only [h0, if_true] at h
      cases hr : findMount rest segs with
      | none =>
        rw [hr] at h
        simp only [Option.some.injEq, Prod.mk.injEq] at h
        obtain ⟨he, _⟩ := h
        subst he
        rcases List.mem_cons.mp hm2 with h2 | h2
        · exact le_of_eq (by rw [h2])
        · have := (findMount_eq_none_iff rest segs).mp hr m2 h2
          rw [hpre2] at this
          exact absurd this (by simp)
      | some p =>
        obtain ⟨m2', rel2'⟩ := p
        rw [hr] at h
        by_cases hlt : (prefixSegs m2').length < (prefixSegs m0).length
        · simp only [hlt, if_true, Option.some.injEq, Prod.mk.injEq] at h
          obtain ⟨he, _⟩ := h
          subst he
          rcases List.mem_cons.mp hm2 with h2 | h2
          · exact le_of_eq (by rw [h2])
          · exact le_trans (ih m2' rel2' hr m2 h2 hpre2) (le_of_lt hlt)
        · simp only [hlt, if_false, Option.some.injEq, Prod.mk.injEq] at h
          obtain ⟨he, _⟩ := h
          subst he
          rcases List.mem_cons.mp hm2 with h2 | h2
          · subst h2; exact Nat.le_of_not_lt hlt
          · exact ih _ _ hr m2 h2 hpre2
    · simp only [h0, if_false] at h
      rcases List.mem_cons.mp hm2 with h2 | h2
      · subst h2; rw [hpre2] at h0; exact absurd rfl h0
      · exact ih m rel h m2 h2 hpre2

theorem findMount_isSome_of_mem (ms : List MountPoint) (segs : List (List Char))
    (m : MountPoint) (hm : m ∈ ms)
    (hpre : (prefixSegs m).isPrefixOf segs = true) :
    findMount ms segs ≠ none := by
  intro h
  have := (findMount_eq_none_iff ms segs).mp h m hm
  rw [hpre] at this
  exact absurd this (by simp)

theorem conflictFree_iff_pairwise (ms : List MountPoint) :
    conflictFree ms = true ↔
      ms.Pairwise (fun a b => prefixesConflict a b = false) := by
  induction ms with
  | nil => simp [conflictFree]
  | cons m rest ih =>
    simp [conflictFree, List.pairwise_cons, ih, List.all_eq_true, Bool.not_eq_true']

instance : IsTotal Entry entryLe :=
  ⟨fun a b => le_total (entryName a) (entryName b)⟩

instance : IsTrans Entry entryLe :=
  ⟨fun _ _ _ hab hbc => le_trans hab hbc⟩

theorem rootEntry_ne (a b : MountPoint) (h : prefixesConflict a b = false) :
    rootEntry a ≠ rootEntry b := by
  intro he
  simp only [rootEntry, Entry.directory.injEq] at he
  obtain ⟨_, hpath, _⟩ := he
  have hdata : a.pfx.data = b.pfx.data := by
    have := congrArg String.data hpath
    simpa [String.data_append] using this
  have hsegs : prefixSegs a = prefixSegs b := by
    simp [prefixSegs, hdata]
  have hself : (prefixSegs a).isPrefixOf (prefixSegs b) = true := by
    rw [hsegs]
    exact List.isPrefixOf_iff_prefix.mpr (List.prefix_refl _)
  simp [prefixesConflict, hself] at h

theorem normalizePath_cons (p : String) (rest : List Char) (h : p.data = '/' :: rest) :
    normalizePath p =
      if (pathSegs rest).any isDotSeg then none else some (pathSegs rest) := by
  unfold normalizePath
  split
  · next rest2 heq =>
    rw [h] at heq
    injection heq with _ h2
    rw [h2]
  · next hne =>
    exact absurd (by rw [h]) (hne rest)

theorem normalizePath_not_slash (p : String) (h : ∀ l : List Char, p.data ≠ '/' :: l) :
    normalizePath p = none := by
  unfold normalizePath
  split
  · next rest heq => exact absurd heq (h rest)
  · rfl

theorem lookup_updateDebug (f : DebugInfo → DebugInfo) (key : String)
    (l : List (String × DebugInfo)) :
    (updateDebug f key l).lookup key =
      some (f (((l.lookup key).getD ⟨false, none⟩))) := by
  induction l with
  | nil => simp [updateDebug, List.lookup]
  | cons kd rest ih =>
    obtain ⟨k, d⟩ := kd
    by_cases hk : k = key
    · subst hk
      simp [updateDebug, List.lookup]
    · have hbeq : (key == k) = false := beq_eq_false_iff_ne.mpr (Ne.symm hk)
      simp [updateDebug, List.lookup, hk, hbeq, ih]

theorem getDebug_recordDebugError (md : StepMetadata) (key : String) (e : String) :
    (getDebug (recordDebugError md key e) key).error = some e := by
  unfold getDebug recordDebugError
  rw [lookup_updateDebug]

/-! ## Claim theorems -/

/-- C1: for every `Ls` or `View` invocation whose underlying call fails with
`NotFound`, `IsADirectory` or `SourceError`, the adapter returns a successful
tool result whose payload is a (nonempty) human-readable error string; no
error escapes the tool-adapter boundary. -/
theorem c1_tool_adapters_return_error_text (vfs : VirtualFileSystem)
    (path : String) (maxLen : Nat) (e : FsError) :
    (listDirectory vfs path = .error e → lsTool vfs path = renderError e) ∧
    (readFile vfs path = .error e → viewTool maxLen vfs path = renderError e) ∧
    renderError e ≠ "" := by
  refine ⟨?_, ?_, ?_⟩
  · intro h
    simp [lsTool, h]
  · intro h
    simp [viewTool, h]
  · cases e with
    | notFound => decide
    | isADirectory => decide
    | sourceError cause =>
      intro h
      have hd := congrArg String.data h
      simp only [renderError, String.data_append] at hd
      exact absurd (List.append_eq_nil.mp hd).1 (by decide)

/-- Witness for C1 at a path no mount covers. -/
theorem c1_witness :
    lsTool sampleVfs "/missing" = renderError FsError.notFound ∧
    viewTool 100 sampleVfs "/missing" = renderError FsError.notFound :=
  ⟨(c1_tool_adapters_return_error_text sampleVfs "/missing" 100 .notFound).1 rfl,
    (c1_tool_adapters_return_error_text sampleVfs "/missing" 100 .notFound).2.1 rfl⟩

/-- C3: whenever two mounts (at distinct positions) have equal or
ancestor/descendant prefixes, construction fails with `MountConflict`; the
check lives in `construct`, before any per-call operation. -/
theorem c3_construct_mount_conflict (ms : List MountPoint) (i j : Nat)
    (hi : i < ms.length) (hj : j < ms.length) (hne : i ≠ j)
    (hc : prefixesConflict ms[i] ms[j] = true) :
    construct ms = .error .mountConflict := by
  have hcf : conflictFree ms = false := by
    cases hb : conflictFree ms
    · rfl
    · exfalso
      have hpw := (conflictFree_iff_pairwise ms).mp hb
      rcases Nat.lt_or_ge i j with hij | hij
      · have := List.pairwise_iff_getElem.mp hpw i j hi hj hij
        rw [hc] at this
        exact absurd this (by simp)
      · have hij2 : j < i := Nat.lt_of_le_of_ne hij (Ne.symm hne)
        have := List.pairwise_iff_getElem.mp hpw j i hj hi hij2
        have hc2 : prefixesConflict ms[j] ms[i] = true := by
          unfold prefixesConflict at hc ⊢
          rwa [Bool.or_comm] at hc
        rw [hc2] at this
        exact absurd this (by simp)
  simp [construct, hcf]

/-- Witness for C3 on two mounts with ancestor/descendant prefixes. -/
theorem c3_witness :
    construct [conflictMountA, conflictMountB] = .error .mountConflict :=
  c3_construct_mount_conflict [conflictMountA, conflictMountB] 0 1
    (by simp) (by simp) (by decide) (by decide)

/-- C4: a non-root path routed to a mount is handled by stripping the mount
prefix, delegating to the mount's source `list`, and translating each entry
back by re-prepending the prefix, preserving name, kind, size and description
unchanged. -/
theorem c4_list_delegation (vfs : VirtualFileSystem) (path : String)
    (segs : List (List Char)) (m : MountPoint) (rel : List (List Char))
    (hn : normalizePath path = some segs) (hne : segs ≠ [])
    (hf : findMount vfs.mounts segs = some (m, rel)) :
    listDirectory vfs path =
      Except.map (List.map (reprefixEntry m)) (m.source.list (relPathString rel)) ∧
    prefixSegs m ++ rel = segs ∧
    ∀ e : Entry,
      entryName (reprefixEntry m e) = entryName e ∧
      isDirEntry (reprefixEntry m e) = isDirEntry e ∧
      entrySize (reprefixEntry m e) = entrySize e ∧
      entryDescription (reprefixEntry m e) = entryDescription e ∧
      entryPath (reprefixEntry m e) = "/" ++ m.pfx ++ "/" ++ entryPath e := by
  refine ⟨?_, ?_, ?_⟩
  · cases segs with
    | nil => exact absurd rfl hne
    | cons s ss =>
      simp only [listDirectory, hn, hf]
      cases hsl : m.source.list (relPathString rel) <;> simp [Except.map, hsl]
  · obtain ⟨_, hpre, hrel⟩ := findMount_some_spec vfs.mounts segs m rel hf
    obtain ⟨t, ht⟩ := List.isPrefixOf_iff_prefix.mp hpre
    rw [hrel, ← ht, List.drop_left]
  · intro e
    cases e <;>
      simp [reprefixEntry, entryName, isDirEntry, entrySize, entryDescription, entryPath]

/-- Witness for C4 at the sample attachments mount. -/
theorem c4_witness :
    listDirectory sampleVfs "/attachments" =
      Except.map (List.map (reprefixEntry sampleAttachmentsMount))
        (sampleAttachmentsMount.source.list (relPathString [])) :=
  (c4_list_delegation sampleVfs "/attachments" (prefixSegs sampleAttachmentsMount)
    sampleAttachmentsMount [] rfl (by decide) rfl).1

/-- C5 counterexample: the claim quantifies over every path such that no
mount's prefix is an ancestor of the normalized path, which includes the root
`/` (mount prefixes are non-root, so none is an ancestor of the root); but at
the root `list_directory` succeeds with the synthesized listing and
`read_file` fails with `IsADirectory`, not `NotFound`. -/
theorem c5_counterexample :
    normalizePath "/" = some [] ∧
    (∀ m ∈ sampleVfs.mounts, ¬ prefixSegs m <+: ([] : List (List Char))) ∧
    readFile sampleVfs "/" = .error .isADirectory ∧
    (readFile sampleVfs "/" = .error .notFound → False) ∧
    listDirectory sampleVfs "/" = .ok (rootListing sampleVfs.mounts) ∧
    (listDirectory sampleVfs "/" = .error .notFound → False) := by
  refine ⟨rfl, ?_, rfl, ?_, rfl, ?_⟩
  · intro m hm
    simp only [sampleVfs] at hm
    rcases List.mem_cons.mp hm with h | h
    · subst h; decide
    · rcases List.mem_cons.mp h with h2 | h2
      · subst h2; decide
      · simp at h2
  · intro h
    rw [show readFile sampleVfs "/" = .error .isADirectory from rfl] at h
    injection h with h2
    exact FsError.noConfusion h2
  · intro h
    rw [show listDirectory sampleVfs "/" = .ok (rootListing sampleVfs.mounts) from rfl] at h
    exact Except.noConfusion h

/-- C5 (amended to non-root paths): for every path whose normalized form is
non-root and has no mount's prefix as an ancestor, `read_file` and
`list_directory` fail with `NotFound`. -/
theorem c5_uncovered_not_found (vfs : VirtualFileSystem) (path : String)
    (segs : List (List Char)) (hn : normalizePath path = some segs)
    (hne : segs ≠ []) (h : ∀ m ∈ vfs.mounts, ¬ prefixSegs m <+: segs) :
    listDirectory vfs path = .error .notFound ∧
    readFile vfs path = .error .notFound := by
  have hf : findMount vfs.mounts segs = none := by
    rw [findMount_eq_none_iff]
    intro m hm
    cases hb : (prefixSegs m).isPrefixOf segs
    · rfl
    · exact absurd (List.isPrefixOf_iff_prefix.mp hb) (h m hm)
  cases segs with
  | nil => exact absurd rfl hne
  | cons s ss => exact ⟨by simp [listDirectory, hn, hf], by simp [readFile, hn, hf]⟩

/-- Witness for the amended C5 at an uncovered path. -/
theorem c5_witness :
    listDirectory sampleVfs "/missing/x" = .error .notFound ∧
    readFile sampleVfs "/missing/x" = .error .notFound :=
  c5_uncovered_not_found sampleVfs "/missing/x"
    (pathSegs "missing/x".data) rfl (by decide)
    (by
      intro m hm
      simp only [sampleVfs] at hm
      rcases List.mem_cons.mp hm with h | h
      · subst h; decide
      · rcases List.mem_cons.mp h with h2 | h2
        · subst h2; decide
        · simp at h2)

/-- C6: `read_file` on the root, or on a path exactly equal to some mount's
prefix, fails with `IsADirectory` — never `NotFound` and never a content
result. -/
theorem c6_read_file_directory (vfs : VirtualFileSystem) (path : String)
    (segs : List (List Char)) (hn : normalizePath path = some segs)
    (h : segs = [] ∨ ∃ m ∈ vfs.mounts, prefixSegs m = segs) :
    readFile vfs path = .error .isADirectory := by
  rcases h with rfl | ⟨m, hm, hms⟩
  · simp [readFile, hn]
  · cases hseg : segs with
    | nil =>
      rw [hseg] at hn
      simp [readFile, hn]
    | cons s ss =>
      rw [hseg] at hn hms
      have hpre : (prefixSegs m).isPrefixOf (s :: ss) = true := by
        rw [hms]
        exact List.isPrefixOf_iff_prefix.mpr (List.prefix_refl _)
      have hsome := findMount_isSome_of_mem vfs.mounts (s :: ss) m hm hpre
      cases hf : findMount vfs.mounts (s :: ss) with
      | none => exact absurd hf hsome
      | some p =>
        obtain ⟨m2, rel2⟩ := p
        obtain ⟨hmem2, hpre2, hrel2⟩ := findMount_some_spec _ _ _ _ hf
        have hmax := findMount_maximal _ _ _ _ hf m hm hpre
        have hlen2 : (prefixSegs m2).length ≤ (s :: ss).length :=
          (List.isPrefixOf_iff_prefix.mp hpre2).length_le
        have hlenm : (prefixSegs m).length = (s :: ss).length := by rw [hms]
        have heq : (prefixSegs m2).length = (s :: ss).length :=
          le_antisymm hlen2 (by rw [← hlenm]; exact hmax)
        have hfull : prefixSegs m2 = s :: ss :=
          (List.isPrefixOf_iff_prefix.mp hpre2).eq_of_length heq
        have hrelnil : rel2 = [] := by
          rw [hrel2, heq, List.drop_length]
        subst hrelnil
        simp [readFile, hn, hf]

/-- Witness for C6 at the exact prefix of the sample attachments mount. -/
theorem c6_witness :
    readFile sampleVfs "/attachments" = .error .isADirectory :=
  c6_read_file_directory sampleVfs "/attachments"
    (prefixSegs sampleAttachmentsMount) rfl
    (Or.inr ⟨sampleAttachmentsMount, by simp [sampleVfs], rfl⟩)

/-- C7: `View` truncates content longer than the configured maximum to exactly
that maximum and appends the truncation marker; content at or under the
maximum is returned unmodified, with no marker. -/
theorem c7_view_truncation (maxLen : Nat) (vfs : VirtualFileSystem)
    (path : String) (r : FileReadResult) (h : readFile vfs path = .ok r) :
    (r.content.length ≤ maxLen → viewTool maxLen vfs path = r.content) ∧
    (maxLen < r.content.length →
      viewTool maxLen vfs path =
        String.mk (r.content.data.take maxLen) ++ truncationMarker ∧
      (String.mk (r.content.data.take maxLen)).length = maxLen) := by
  constructor
  · intro hle
    simp only [viewTool, h, truncateContent]
    rw [if_neg (by omega)]
  · intro hlt
    have hdl : r.content.length = r.content.data.length := rfl
    constructor
    · simp only [viewTool, h, truncateContent]
      rw [if_pos hlt]
    · rw [String.length_mk, List.length_take]
      omega

/-- Witness for C7: both the at-limit and the over-limit behavior on the
sample three-byte file. -/
theorem c7_witness :
    viewTool 3 sampleVfs "/attachments/a.txt" = "abc" ∧
    viewTool 2 sampleVfs "/attachments/a.txt" =
      String.mk ("abc".data.take 2) ++ truncationMarker :=
  ⟨(c7_view_truncation 3 sampleVfs "/attachments/a.txt" ⟨"abc", 3, none⟩ rfl).1
      (by decide),
    ((c7_view_truncation 2 sampleVfs "/attachments/a.txt" ⟨"abc", 3, none⟩ rfl).2
      (by decide)).1⟩

/-- C2: a virtual filesystem constructed from N conflict-free mounts lists the
root as exactly N `Directory` entries, one per mount (name = the mount
prefix's first segment, path = `/` + prefix, as `rootEntry` records), sorted
alphabetically by name, with no duplicates; the listing is fabricated from the
mounts' prefixes and descriptions alone, without calling any source. -/
theorem c2_root_listing (ms : List MountPoint) (vfs : VirtualFileSystem)
    (h : construct ms = .ok vfs) :
    listDirectory vfs "/" = .ok (rootListing ms) ∧
    (rootListing ms).Perm (ms.map rootEntry) ∧
    (rootListing ms).length = ms.length ∧
    (∀ e ∈ rootListing ms, isDirEntry e = true) ∧
    (rootListing ms).Sorted entryLe ∧
    (rootListing ms).Nodup ∧
    (∀ ms2 : List MountPoint,
      ms2.map (fun m => (m.pfx, m.description)) =
        ms.map (fun m => (m.pfx, m.description)) →
      listDirectory ⟨ms2⟩ "/" = listDirectory vfs "/") := by
  have hsplit : conflictFree ms = true ∧ vfs = ⟨ms⟩ := by
    unfold construct at h
    by_cases hb : conflictFree ms = true
    · rw [if_pos hb] at h
      injection h with h2
      exact ⟨hb, h2.symm⟩
    · rw [if_neg hb] at h
      exact Except.noConfusion h
  obtain ⟨hcf, rfl⟩ := hsplit
  have hroot : listDirectory ⟨ms⟩ "/" = .ok (rootListing ms) := rfl
  refine ⟨hroot, List.perm_insertionSort entryLe _, ?_, ?_, ?_, ?_, ?_⟩
  · rw [show rootListing ms = List.insertionSort entryLe (ms.map rootEntry) from rfl,
      (List.perm_insertionSort entryLe (ms.map rootEntry)).length_eq, List.length_map]
  · intro e he
    have hmem := (List.perm_insertionSort entryLe (ms.map rootEntry)).subset he
    obtain ⟨m, _, rfl⟩ := List.mem_map.mp hmem
    rfl
  · exact List.sorted_insertionSort entryLe (ms.map rootEntry)
  · have hpw := (conflictFree_iff_pairwise ms).mp hcf
    have hmapnd : (ms.map rootEntry).Nodup :=
      hpw.map rootEntry (fun a b hab => rootEntry_ne a b hab)
    exact ((List.perm_insertionSort entryLe (ms.map rootEntry)).nodup_iff).mpr hmapnd
  · intro ms2 hview
    have hfun : (rootEntryView ∘ fun m : MountPoint => (m.pfx, m.description)) =
        rootEntry := funext fun m => rfl
    have h1 : ms2.map rootEntry =
        (ms2.map (fun m => (m.pfx, m.description))).map rootEntryView := by
      rw [List.map_map, hfun]
    have hmap : ms2.map rootEntry = ms.map rootEntry := by
      rw [h1, hview, List.map_map, hfun]
    rw [hroot, show listDirectory ⟨ms2⟩ "/" = .ok (rootListing ms2) from rfl]
    unfold rootListing sortEntries
    rw [hmap]

/-- Witness for C2 on the two sample mounts. -/
theorem c2_witness :
    listDirectory sampleVfs "/" =
      .ok (rootListing [sampleAttachmentsMount, sampleArchiveMount]) ∧
    (rootListing [sampleAttachmentsMount, sampleArchiveMount]).Perm
      ([sampleAttachmentsMount, sampleArchiveMount].map rootEntry) ∧
    (rootListing [sampleAttachmentsMount, sampleArchiveMount]).length =
      [sampleAttachmentsMount, sampleArchiveMount].length ∧
    (∀ e ∈ rootListing [sampleAttachmentsMount, sampleArchiveMount],
      isDirEntry e = true) ∧
    (rootListing [sampleAttachmentsMount, sampleArchiveMount]).Sorted entryLe ∧
    (rootListing [sampleAttachmentsMount, sampleArchiveMount]).Nodup ∧
    (∀ ms2 : List MountPoint,
      ms2.map (fun m => (m.pfx, m.description)) =
        [sampleAttachmentsMount, sampleArchiveMount].map
          (fun m => (m.pfx, m.description)) →
      listDirectory ⟨ms2⟩ "/" = listDirectory sampleVfs "/") :=
  c2_root_listing [sampleAttachmentsMount, sampleArchiveMount] sampleVfs rfl

/-- C8: both operations normalize the input path first — a non-absolute path
is rejected (`NotFound`), a trailing separator is stripped, repeated
separators collapse, no `.` or `..` segment is accepted (a path containing
either fails with `NotFound`), and a routed path never resolves outside the
matched mount's prefix (prefix ++ relative remainder = the normalized
path). -/
theorem c8_path_normalization (vfs : VirtualFileSystem) (p a b : String)
    (segs : List (List Char)) :
    ((∀ l : List Char, p.data ≠ '/' :: l) →
      listDirectory vfs p = .error .notFound ∧
      readFile vfs p = .error .notFound) ∧
    (normalizePath p = some segs → normalizePath (p ++ "/") = some segs) ∧
    normalizePath (a ++ "//" ++ b) = normalizePath (a ++ "/" ++ b) ∧
    (∀ (rest s : List Char), p.data = '/' :: rest →
      (s = ['.'] ∨ s = ['.', '.']) → s ∈ pathSegs rest →
      listDirectory vfs p = .error .notFound ∧
      readFile vfs p = .error .notFound) ∧
    (∀ (m : MountPoint) (rel : List (List Char)),
      findMount vfs.mounts segs = some (m, rel) → prefixSegs m ++ rel = segs) := by
  refine ⟨?_, ?_, ?_, ?_, ?_⟩
  · intro h
    have hn := normalizePath_not_slash p h
    exact ⟨by simp [listDirectory, hn], by simp [readFile, hn]⟩
  · intro hnp
    cases hd : p.data with
    | nil =>
      rw [normalizePath_not_slash p
        (by intro l hl; rw [hd] at hl; exact List.noConfusion hl)] at hnp
      exact Option.noConfusion hnp
    | cons c rest =>
      by_cases hc : c = '/'
      · subst hc
        rw [normalizePath_cons p rest hd] at hnp
        by_cases hdot : (pathSegs rest).any isDotSeg = true
        · rw [if_pos hdot] at hnp
          exact Option.noConfusion hnp
        · rw [if_neg hdot] at hnp
          injection hnp with hsegs
          have hd2 : (p ++ "/").data = '/' :: (rest ++ '/' :: []) := by
            rw [String.data_append, hd]
            rfl
          rw [normalizePath_cons (p ++ "/") (rest ++ '/' :: []) hd2,
            pathSegs_append, pathSegs_nil, List.append_nil, if_neg hdot, hsegs]
      · rw [normalizePath_not_slash p
          (by
            intro l hl
            rw [hd] at hl
            injection hl with h1 _
            exact hc h1)] at hnp
        exact Option.noConfusion hnp
  · have hd1 : (a ++ "//" ++ b).data = a.data ++ ('/' :: '/' :: b.data) := by
      rw [String.data_append, String.data_append, List.append_assoc]
      rfl
    have hd2 : (a ++ "/" ++ b).data = a.data ++ ('/' :: b.data) := by
      rw [String.data_append, String.data_append, List.append_assoc]
      rfl
    cases hda : a.data with
    | nil =>
      rw [normalizePath_cons (a ++ "//" ++ b) ('/' :: b.data)
          (by rw [hd1, hda]; rfl),
        normalizePath_cons (a ++ "/" ++ b) b.data (by rw [hd2, hda]; rfl),
        pathSegs_slash_cons]
    | cons c r =>
      by_cases hc : c = '/'
      · subst hc
        rw [normalizePath_cons (a ++ "//" ++ b) (r ++ '/' :: '/' :: b.data)
            (by rw [hd1, hda]; rfl),
          normalizePath_cons (a ++ "/" ++ b) (r ++ '/' :: b.data)
            (by rw [hd2, hda]; rfl),
          pathSegs_append, pathSegs_append, pathSegs_slash_cons]
      · rw [normalizePath_not_slash (a ++ "//" ++ b)
            (by
              intro l hl
              rw [hd1, hda, List.cons_append] at hl
              injection hl with h1 _
              exact hc h1),
          normalizePath_not_slash (a ++ "/" ++ b)
            (by
              intro l hl
              rw [hd2, hda, List.cons_append] at hl
              injection hl with h1 _
              exact hc h1)]
  · intro rest s hd hs hmem
    have hsdot : isDotSeg s = true := by
      rcases hs with rfl | rfl <;> decide
    have hdot : (pathSegs rest).any isDotSeg = true :=
      List.any_eq_true.mpr ⟨s, hmem, hsdot⟩
    have hn : normalizePath p = none := by
      rw [normalizePath_cons p rest hd, if_pos hdot]
    exact ⟨by simp [listDirectory, hn], by simp [readFile, hn]⟩
  · intro m rel hf
    obtain ⟨_, hpre, hrel⟩ := findMount_some_spec vfs.mounts segs m rel hf
    obtain ⟨t, ht⟩ := List.isPrefixOf_iff_prefix.mp hpre
    rw [hrel, ← ht, List.drop_left]

/-- Witness for C8: a path with a `..` segment and a path with a `.` segment
both fail with `NotFound` on both operations. -/
theorem c8_witness :
    (listDirectory sampleVfs "/attachments/../x" = .error .notFound ∧
      readFile sampleVfs "/attachments/../x" = .error .notFound) ∧
    (listDirectory sampleVfs "/attachments/./x" = .error .notFound ∧
      readFile sampleVfs "/attachments/./x" = .error .notFound) :=
  ⟨(c8_path_normalization sampleVfs "/attachments/../x" "" "" []).2.2.2.1
      ("attachments/../x".data) ['.', '.'] rfl (Or.inr rfl) (by decide),
    (c8_path_normalization sampleVfs "/attachments/./x" "" "" []).2.2.2.1
      ("attachments/./x".data) ['.'] rfl (Or.inl rfl) (by decide)⟩

/-- C9: every `next_step` call (whose two mounts do not conflict) constructs a
fresh virtual filesystem from exactly the attachments mount and the archive
mount, wraps it in a tool collection holding exactly an `Ls` tool and a
`View` tool over that same filesystem, and includes both tools' schemas in the
tool list sent to the model. -/
theorem c9_step_wiring (env : StepEnv) (key : String) (md : StepMetadata)
    (hcf : conflictFree [env.attachmentsMount, env.archiveMount] = true) :
    ∃ out : StepOutcome, nextStep env key md = .ok out ∧
      out.vfs = ⟨[env.attachmentsMount, env.archiveMount]⟩ ∧
      out.vfs.mounts.length = 2 ∧
      out.vfsTools.tools = [.lsAdapter out.vfs, .viewAdapter out.vfs] ∧
      out.tools =
        [VfsToolAdapter.toolParam (.lsAdapter out.vfs),
          VfsToolAdapter.toolParam (.viewAdapter out.vfs)] ++ env.mcpTools ∧
      VfsToolAdapter.toolParam (.lsAdapter out.vfs) ∈ out.tools ∧
      VfsToolAdapter.toolParam (.viewAdapter out.vfs) ∈ out.tools := by
  have hcons : construct [env.attachmentsMount, env.archiveMount] =
      .ok ⟨[env.attachmentsMount, env.archiveMount]⟩ := by
    simp [construct, hcf]
  cases hco : env.completionOutcome with
  | exception e =>
    have hstep : nextStep env key md = .ok
        { result := ⟨"error", recordDebugError (recordDebugRequest md key) key e⟩
          notices := [⟨openaiErrorNotice,
            some (recordDebugError (recordDebugRequest md key) key e)⟩]
          vfs := ⟨[env.attachmentsMount, env.archiveMount]⟩
          vfsTools := ⟨[.lsAdapter ⟨[env.attachmentsMount, env.archiveMount]⟩,
            .viewAdapter ⟨[env.attachmentsMount, env.archiveMount]⟩]⟩
          tools :=
            [VfsToolAdapter.toolParam
                (.lsAdapter ⟨[env.attachmentsMount, env.archiveMount]⟩),
              VfsToolAdapter.toolParam
                (.viewAdapter ⟨[env.attachmentsMount, env.archiveMount]⟩)] ++
              env.mcpTools } := by
      simp [nextStep, hcons, hco]
    exact ⟨_, hstep, rfl, rfl, rfl, rfl, by simp, by simp⟩
  | success completion =>
    have hstep : nextStep env key md = .ok
        { result := env.handleCompletion completion
            ⟨"continue", recordDebugRequest md key⟩
            ⟨[.lsAdapter ⟨[env.attachmentsMount, env.archiveMount]⟩,
              .viewAdapter ⟨[env.attachmentsMount, env.archiveMount]⟩]⟩
          notices :=
            if 0 < env.tokenOverage then [⟨tokenOverageNotice env.tokenOverage, none⟩]
            else []
          vfs := ⟨[env.attachmentsMount, env.archiveMount]⟩
          vfsTools := ⟨[.lsAdapter ⟨[env.attachmentsMount, env.archiveMount]⟩,
            .viewAdapter ⟨[env.attachmentsMount, env.archiveMount]⟩]⟩
          tools :=
            [VfsToolAdapter.toolParam
                (.lsAdapter ⟨[env.attachmentsMount, env.archiveMount]⟩),
              VfsToolAdapter.toolParam
                (.viewAdapter ⟨[env.attachmentsMount, env.archiveMount]⟩)] ++
              env.mcpTools } := by
      simp [nextStep, hcons, hco]
    exact ⟨_, hstep, rfl, rfl, rfl, rfl, by simp, by simp⟩

/-- Witness for C9 in the sample environment. -/
theorem c9_witness :
    ∃ out : StepOutcome, nextStep sampleEnvOk "step" ⟨[]⟩ = .ok out ∧
      out.vfs = ⟨[sampleEnvOk.attachmentsMount, sampleEnvOk.archiveMount]⟩ ∧
      out.vfs.mounts.length = 2 ∧
      out.vfsTools.tools = [.lsAdapter out.vfs, .viewAdapter out.vfs] ∧
      out.tools =
        [VfsToolAdapter.toolParam (.lsAdapter out.vfs),
          VfsToolAdapter.toolParam (.viewAdapter out.vfs)] ++ sampleEnvOk.mcpTools ∧
      VfsToolAdapter.toolParam (.lsAdapter out.vfs) ∈ out.tools ∧
      VfsToolAdapter.toolParam (.viewAdapter out.vfs) ∈ out.tools :=
  c9_step_wiring sampleEnvOk "step" ⟨[]⟩ rfl

/-- C10: whenever the model-completion call raises, `next_step` catches the
exception, records its string form in the step metadata under the debug key,
sends the fixed notice message, and returns a step result with status
`error`; the exception does not propagate. -/
theorem c10_completion_exception (env : StepEnv) (key : String)
    (md : StepMetadata) (e : String)
    (hco : env.completionOutcome = .exception e)
    (hcf : conflictFree [env.attachmentsMount, env.archiveMount] = true) :
    ∃ out : StepOutcome, nextStep env key md = .ok out ∧
      out.result.status = "error" ∧
      (getDebug out.result.metadata key).error = some e ∧
      out.notices = [⟨openaiErrorNotice, some out.result.metadata⟩] := by
  have hcons : construct [env.attachmentsMount, env.archiveMount] =
      .ok ⟨[env.attachmentsMount, env.archiveMount]⟩ := by
    simp [construct, hcf]
  have hstep : nextStep env key md = .ok
      { result := ⟨"error", recordDebugError (recordDebugRequest md key) key e⟩
        notices := [⟨openaiErrorNotice,
          some (recordDebugError (recordDebugRequest md key) key e)⟩]
        vfs := ⟨[env.attachmentsMount, env.archiveMount]⟩
        vfsTools := ⟨[.lsAdapter ⟨[env.attachmentsMount, env.archiveMount]⟩,
          .viewAdapter ⟨[env.attachmentsMount, env.archiveMount]⟩]⟩
        tools :=
          [VfsToolAdapter.toolParam
              (.lsAdapter ⟨[env.attachmentsMount, env.archiveMount]⟩),
            VfsToolAdapter.toolParam
              (.viewAdapter ⟨[env.attachmentsMount, env.archiveMount]⟩)] ++
            env.mcpTools } := by
    simp [nextStep, hcons, hco]
  exact ⟨_, hstep, rfl,
    getDebug_recordDebugError (recordDebugRequest md key) key e, rfl⟩

/-- Witness for C10 in the sample environment whose completion call raises. -/
theorem c10_witness :
    ∃ out : StepOutcome, nextStep sampleEnvErr "step" ⟨[]⟩ = .ok out ∧
      out.result.status = "error" ∧
      (getDebug out.result.metadata "step").error = some "boom" ∧
      out.notices = [⟨openaiErrorNotice, some out.result.metadata⟩] :=
  c10_completion_exception sampleEnvErr "step" ⟨[]⟩ "boom" rfl rfl
